import Mathlib

/-!
Verification of the `liquid` template tokenizer (src/ext/src/lex.cpp,
lex.h, strings.h) against its natural-language specification.

The C++ source is shallowly embedded over `List Char`.  The scanner's
regular expressions are all fixed, concrete patterns (both `Lexer`
constructors install the same hard-coded regexes, see the TODO at
lex.cpp:78), so each regex is embedded as a bespoke anchored matcher
computing the ECMAScript (leftmost, greedy-with-backtracking) match
length at the current position; `std::regex_search` is the leftmost
search `searchFrom` built from the anchored matcher.
-/

namespace Liquid

/-- ECMAScript `\s` on `char`-based input: space, tab, newline,
vertical tab, form feed, carriage return. -/
def reSpace (c : Char) : Bool :=
  c == ' ' || c == '\t' || c == '\n' || c == '\x0b' || c == '\x0c' || c == '\r'

/-- The character `\x7b` (opening curly brace). -/
def lbrace : Char := '\x7b'

/-- The character `\x7d` (closing curly brace). -/
def rbrace : Char := '\x7d'

/-- strings.h `notspace`: false exactly on newline, space, tab, CR. -/
def notspace (c : Char) : Bool :=
  if c = '\n' ∨ c = ' ' ∨ c = '\t' ∨ c = '\r' then false else true

/-- strings.h `lstrip`: erase the longest leading run failing `notspace`. -/
def lstrip (l : List Char) : List Char := l.dropWhile (fun c => !notspace c)

/-- strings.h `rstrip`: erase the longest trailing run failing `notspace`. -/
def rstrip (l : List Char) : List Char :=
  (l.reverse.dropWhile (fun c => !notspace c)).reverse

/-- strings.h `strip`: `lstrip` then `rstrip`. -/
def strip (l : List Char) : List Char := rstrip (lstrip l)

/-- The greedy `-?` of the delimiter regexes: consume a leading dash when
present, reporting how many characters were taken and the remainder.
Taking the dash when present loses no match, since in every pattern below
the dash is followed by a character that is neither `-` nor whitespace. -/
def optDash : List Char → Nat × List Char
  | '-' :: r => (1, r)
  | r => (0, r)

/-- Anchored match for `\{\{-?\s*` (with `second = lbrace`, the compiled
`re_statement_start_`) and `\{%-?\s*` (with `second = '%'`, the compiled
`re_tag_start_`).  Returns the ECMAScript match length at position 0. -/
def matchStart (second : Char) : List Char → Option Nat
  | c1 :: c2 :: rest =>
      if c1 = lbrace ∧ c2 = second then
        some (2 + (optDash rest).1 + ((optDash rest).2.takeWhile reSpace).length)
      else none
  | _ => none

/-- Anchored match for `\s*-?}}` (with `closer = rbrace`, the compiled
`re_statement_end_`) and `\s*-?%}` (with `closer = '%'`, the compiled
`re_tag_end_`).  The greedy `\s*` takes the maximal whitespace run;
backtracking to a shorter run can never succeed because neither `-` nor
the closing characters are whitespace, and backtracking the `-?` cannot
succeed because the closing characters are not `-`. -/
def matchEnd (closer : Char) (l : List Char) : Option Nat :=
  let w := (l.takeWhile reSpace).length
  let d := optDash (l.drop w)
  match d.2 with
  | c1 :: c2 :: _ => if c1 = closer ∧ c2 = rbrace then some (w + d.1 + 2) else none
  | _ => none

/-- Anchored match for `\{[\{%]-?` (the compiled `re_literal_end_`). -/
def matchLiteralEnd : List Char → Option Nat
  | c1 :: c2 :: rest =>
      if c1 = lbrace ∧ (c2 = lbrace ∨ c2 = '%') then
        match rest with
        | '-' :: _ => some 3
        | _ => some 2
      else none
  | _ => none

/-- Anchored match for `\s|-?%}` (the compiled `re_name_end_`); the first
alternative is preferred, per ECMAScript alternation order. -/
def matchNameEnd : List Char → Option Nat
  | [] => none
  | c :: rest =>
      if reSpace c then some 1
      else if c = '-' then
        match rest with
        | c1 :: c2 :: _ => if c1 = '%' ∧ c2 = rbrace then some 3 else none
        | _ => none
      else
        match rest with
        | c2 :: _ => if c = '%' ∧ c2 = rbrace then some 2 else none
        | _ => none

/-- Anchored match for `\s*` (the global `re_whitespace`); always matches,
greedily taking the maximal whitespace run. -/
def matchWhitespace (l : List Char) : Option Nat :=
  some (l.takeWhile reSpace).length

/-- Anchored match for `\{%-?\s*endraw\s*-?%}` (the global `re_endraw`). -/
def matchEndraw (l : List Char) : Option Nat :=
  match l with
  | c1 :: c2 :: rest =>
      if c1 = lbrace ∧ c2 = '%' then
        let d := optDash rest
        let w1 := (d.2.takeWhile reSpace).length
        match d.2.drop w1 with
        | 'e' :: 'n' :: 'd' :: 'r' :: 'a' :: 'w' :: r3 =>
            let w2 := (r3.takeWhile reSpace).length
            let d2 := optDash (r3.drop w2)
            match d2.2 with
            | e1 :: e2 :: _ =>
                if e1 = '%' ∧ e2 = rbrace then some (2 + d.1 + w1 + 6 + w2 + d2.1 + 2)
                else none
            | _ => none
        | _ => none
      else none
  | _ => none

/-- `std::regex_search` over the remaining input: the least start index at
which the anchored matcher succeeds, with the match length there. -/
def searchFrom (m : List Char → Option Nat) : List Char → Option (Nat × Nat)
  | [] =>
      match m [] with
      | some k => some (0, k)
      | none => none
  | c :: t =>
      match m (c :: t) with
      | some k => some (0, k)
      | none =>
          match searchFrom m t with
          | some (i, k) => some (i + 1, k)
          | none => none

/-- Token type constants of lex.h (`TOKEN_ILLEGAL` .. `TOKEN_EOF`). -/
inductive TokenType
  | illegal
  | statement
  | tag
  | expression
  | literal
  | eof
deriving DecidableEq

/-- lex.h `Token`: line number, type, value. -/
structure Token where
  linenum : Nat
  type : TokenType
  value : List Char
deriving DecidableEq

/-- lex.cpp `State`: the source, the iterator offset `it_ - begin_`, and
the line counter (initialised to 1 by the constructor). -/
structure State where
  source : List Char
  pos : Nat
  linenum : Nat
deriving DecidableEq

/-- `State::State(source)`. -/
def State.init (source : List Char) : State := ⟨source, 0, 1⟩

/-- The text from the iterator to the end of the source. -/
def State.rest (s : State) : List Char := s.source.drop s.pos

/-- `State::End()`: `it_ == end_`. -/
def State.End (s : State) : Bool := s.pos == s.source.length

/-- Boolean prefix test, as used to characterise `std::string::rfind`. -/
def isPre : List Char → List Char → Bool
  | [], _ => true
  | _ :: _, [] => false
  | a :: as, b :: bs => a == b && isPre as bs

/-- `source.rfind(str, k)`: the greatest start index `≤ k` at which `str`
occurs in `source`, if any. -/
def rfindAt (src str : List Char) : Nat → Option Nat
  | 0 => if isPre str src then some 0 else none
  | k + 1 =>
      if isPre str (src.drop (k + 1)) then some (k + 1) else rfindAt src str k

/-- `State::At(str)`: `source_.rfind(str, pos) == pos`. -/
def State.At (s : State) (str : List Char) : Bool :=
  rfindAt s.source str s.pos == some s.pos

/-- `State::ReadUntil(pattern, match)`: search the remainder; on a match
consume and return the prefix before it (the match itself is not
consumed) and report the matched text; otherwise consume and return
everything (`it_ = end_`) and leave the match cleared (`none`).  The line
counter is advanced by the newlines in the returned text. -/
def State.ReadUntil (s : State) (m : List Char → Option Nat) :
    List Char × Option (List Char) × State :=
  match searchFrom m s.rest with
  | some (i, k) =>
      (s.rest.take i, some ((s.rest.drop i).take k),
        ⟨s.source, s.pos + i, s.linenum + (s.rest.take i).count '\n'⟩)
  | none =>
      (s.rest, none, ⟨s.source, s.source.length, s.linenum + s.rest.count '\n'⟩)

/-- `State::Read(pattern, match)`: if the leftmost match is at position 0,
consume and return it (updating the line counter); otherwise consume
nothing and return the empty string. -/
def State.Read (s : State) (m : List Char → Option Nat) : List Char × State :=
  match m s.rest with
  | some k =>
      (s.rest.take k, ⟨s.source, s.pos + k, s.linenum + (s.rest.take k).count '\n'⟩)
  | none => ([], s)

/-- `State::EatEnd(pattern, match, strip_tags)`: read the terminator; if
`strip_tags` is set or the terminator contains `'-'`, additionally read
(and discard) whitespace. -/
def State.EatEnd (s : State) (m : List Char → Option Nat) (stripTags : Bool) : State :=
  let rv := s.Read m
  if stripTags || rv.1.contains '-' then (rv.2.Read matchWhitespace).2 else rv.2

/-- lex.cpp `Lexer`: the four delimiter strings and the `strip_tags_`
flag.  Both C++ constructors install the same six hard-coded regexes
regardless of the delimiter strings (the TODO at lex.cpp:78 notes that
escaping and compiling them from the strings is unimplemented), so the
compiled patterns are represented by the fixed matchers below and are not
fields of the structure. -/
structure Lexer where
  statement_start : List Char
  statement_end : List Char
  tag_start : List Char
  tag_end : List Char
  strip_tags : Bool

/-- The compiled `re_statement_start_`, `\{\{-?\s*`. -/
def reStatementStart : List Char → Option Nat := matchStart lbrace

/-- The compiled `re_statement_end_`, `\s*-?}}`. -/
def reStatementEnd : List Char → Option Nat := matchEnd rbrace

/-- The compiled `re_tag_start_`, `\{%-?\s*`. -/
def reTagStart : List Char → Option Nat := matchStart '%'

/-- The compiled `re_tag_end_`, `\s*-?%}`. -/
def reTagEnd : List Char → Option Nat := matchEnd '%'

/-- The compiled `re_name_end_`, `\s|-?%}`. -/
def reNameEnd : List Char → Option Nat := matchNameEnd

/-- The compiled `re_literal_end_`, `\{[\{%]-?`. -/
def reLiteralEnd : List Char → Option Nat := matchLiteralEnd

/-- The default-constructed `Lexer`. -/
def defaultLexer : Lexer :=
  ⟨[lbrace, lbrace], [rbrace, rbrace], [lbrace, '%'], ['%', rbrace], false⟩

/-- The literal-branch right-trim test `match.str(0).back() == '-'`.
When the preceding `ReadUntil` found no match the smatch was cleared, so
`str(0)` is the empty string and `back()` reads past its end — undefined
behavior in C++; we model the prevailing implementation behavior (the
byte read is the NUL terminator, which is not `'-'`). -/
def backIsDash (m : Option (List Char)) : Bool :=
  (match m with
   | some l => l.getLast?.getD '\x00'
   | none => '\x00') == '-'

/-- The tag name `"raw"`. -/
def rawTag : List Char := ['r', 'a', 'w']

/-- The state after eating the start-tag sequence (lex.cpp:151). -/
def tagS1 (s : State) : State := (s.Read reTagStart).2

/-- The tag-name read (lex.cpp:156). -/
def tagNameRead (s : State) : List Char × Option (List Char) × State :=
  (tagS1 s).ReadUntil reNameEnd

/-- The state after reading the tag name. -/
def tagS2 (s : State) : State := (tagNameRead s).2.2

/-- The tag-expression read (lex.cpp:163). -/
def tagExprRead (s : State) : List Char × Option (List Char) × State :=
  (tagS2 s).ReadUntil reTagEnd

/-- The statement branch of `Lexer::Tokenize` (lex.cpp:121-143). -/
def stmtBranch (lx : Lexer) (s : State) : List Token × State :=
  let s1 := (s.Read reStatementStart).2
  let ru := s1.ReadUntil reStatementEnd
  ([⟨s1.linenum, TokenType.statement, ru.1⟩],
    ru.2.2.EatEnd reStatementEnd lx.strip_tags)

/-- The tag branch of `Lexer::Tokenize` (lex.cpp:144-182), including the
special case for `raw` tags. -/
def tagBranch (lx : Lexer) (s : State) : List Token × State :=
  let name := (tagNameRead s).1
  let ex := strip (tagExprRead s).1
  let s4 := (tagExprRead s).2.2.EatEnd reTagEnd lx.strip_tags
  let base := ⟨(tagS1 s).linenum, TokenType.tag, name⟩ ::
    (if ex = [] then [] else [⟨(tagS2 s).linenum, TokenType.expression, ex⟩])
  if name = rawTag then
    let rr := s4.ReadUntil matchEndraw
    (base ++ [⟨s4.linenum, TokenType.literal, rr.1⟩], rr.2.2)
  else
    (base, s4)

/-- The literal branch of `Lexer::Tokenize` (lex.cpp:183-195). -/
def literalBranch (s : State) : List Token × State :=
  let ru := s.ReadUntil reLiteralEnd
  let v := if backIsDash ru.2.1 then rstrip ru.1 else ru.1
  ([⟨s.linenum, TokenType.literal, v⟩], ru.2.2)

/-- One iteration of the `Lexer::Tokenize` loop: classify the current
position and run the corresponding branch. -/
def step (lx : Lexer) (s : State) : List Token × State :=
  if s.At lx.statement_start then stmtBranch lx s
  else if s.At lx.tag_start then tagBranch lx s
  else literalBranch s

/-- The fuelled `while (!state.End())` loop of `Lexer::Tokenize`;
`none` means the fuel ran out before the cursor reached the end. -/
def tokenizeLoop (lx : Lexer) : Nat → State → Option (List Token × State)
  | 0, s => if s.End then some ([], s) else none
  | fuel + 1, s =>
      if s.End then some ([], s)
      else
        match tokenizeLoop lx fuel (step lx s).2 with
        | some (ts, sf) => some ((step lx s).1 ++ ts, sf)
        | none => none

/-- `Lexer::Tokenize(source)`: run the loop, then append the terminal
end-of-input token carrying the final line number and empty text. -/
def Tokenize (lx : Lexer) (source : List Char) : Option (List Token) :=
  match tokenizeLoop lx (source.length + 1) (State.init source) with
  | some (ts, sf) => some (ts ++ [⟨sf.linenum, TokenType.eof, []⟩])
  | none => none

/-- A matcher is bounded when every reported match length fits in the input. -/
def BoundedM (m : List Char → Option Nat) : Prop :=
  ∀ l k, m l = some k → k ≤ l.length

/-- The line-number invariant of a cursor state: the counter equals one
plus the number of newlines before the current position. -/
def LineInv (s : State) : Prop :=
  s.linenum = 1 + (s.source.take s.pos).count '\n'

/-- A sample mid-scan cursor state, used to instantiate theorems with
hypotheses at a concrete input. -/
def wState : State := ⟨( "a\nb" ).toList, 1, 1⟩

/-- A sample cursor state at the start of a tag, used to instantiate
theorems with hypotheses at a concrete input. -/
def sTag : State := State.init ( "\x7b% if x %\x7d" ).toList

/-- A sample cursor state positioned at the opening statement delimiter
of "hi \x7b\x7b name \x7d\x7d!". -/
def sStmt : State := ⟨( "hi \x7b\x7b name \x7d\x7d!" ).toList, 3, 1⟩

/-- A sample cursor state at the start of a raw tag. -/
def sRaw : State := State.init
  ( "\x7b% raw %\x7d\x7b\x7b not a statement \x7d\x7d\x7b% endraw %\x7d" ).toList

/-! ### Helper lemmas -/

lemma takeWhile_len_le (p : Char → Bool) (l : List Char) :
    (l.takeWhile p).length ≤ l.length := by
  induction l with
  | nil => simp [List.takeWhile]
  | cons c t ih =>
      by_cases h : p c <;> simp [List.takeWhile, h] <;> omega

lemma searchFrom_le {m : List Char → Option Nat} :
    ∀ {l : List Char} {i k : Nat}, searchFrom m l = some (i, k) → i ≤ l.length := by
  intro l
  induction l with
  | nil =>
      intro i k h
      simp only [searchFrom] at h
      rcases hm : m [] with _ | k0 <;> rw [hm] at h <;> simp_all
  | cons c t ih =>
      intro i k h
      simp only [searchFrom] at h
      rcases hm : m (c :: t) with _ | k0 <;> rw [hm] at h
      · rcases hs : searchFrom m t with _ | ⟨i0, k0⟩ <;> rw [hs] at h
        · exact absurd h (by simp)
        · obtain ⟨rfl, rfl⟩ : i0 + 1 = i ∧ k0 = k := by
            simpa using h
          have := ih hs
          simp only [List.length_cons]
          omega
      · obtain ⟨rfl, rfl⟩ : 0 = i ∧ k0 = k := by simpa using h
        exact Nat.zero_le _

lemma searchFrom_none_pos {m : List Char → Option Nat} {l : List Char} {i k : Nat}
    (hm : m l = none) (h : searchFrom m l = some (i, k)) : 1 ≤ i := by
  cases l with
  | nil => simp [searchFrom, hm] at h
  | cons c t =>
      simp only [searchFrom, hm] at h
      rcases hs : searchFrom m t with _ | ⟨i0, k0⟩ <;> rw [hs] at h
      · exact absurd h (by simp)
      · obtain ⟨rfl, rfl⟩ : i0 + 1 = i ∧ k0 = k := by simpa using h
        omega

lemma searchFrom_zero {m : List Char → Option Nat} {l : List Char} {k : Nat}
    (hm : m l = some k) : searchFrom m l = some (0, k) := by
  cases l <;> simp [searchFrom, hm]

lemma optDash_len (l : List Char) : (optDash l).1 + (optDash l).2.length = l.length := by
  unfold optDash
  split <;> simp <;> omega

lemma matchStart_bounded (second : Char) : BoundedM (matchStart second) := by
  intro l k h
  match l with
  | [] => simp [matchStart] at h
  | [c] => simp [matchStart] at h
  | c1 :: c2 :: rest =>
      simp only [matchStart] at h
      split at h
      · obtain rfl :
            2 + (optDash rest).1 + ((optDash rest).2.takeWhile reSpace).length = k := by
          simpa using h
        have h1 := optDash_len rest
        have h2 := takeWhile_len_le reSpace (optDash rest).2
        simp only [List.length_cons]
        omega
      · exact absurd h (by simp)

lemma matchEnd_bounded (closer : Char) : BoundedM (matchEnd closer) := by
  intro l k h
  simp only [matchEnd] at h
  have hw := takeWhile_len_le reSpace l
  have hlen : (l.drop (l.takeWhile reSpace).length).length
      = l.length - (l.takeWhile reSpace).length := List.length_drop ..
  have hd := optDash_len (l.drop (l.takeWhile reSpace).length)
  rcases hm : (optDash (l.drop (l.takeWhile reSpace).length)).2 with _ | ⟨e1, t⟩
  · rw [hm] at h
    exact absurd h (by simp)
  · rw [hm] at h
    rcases t with _ | ⟨e2, t'⟩
    · exact absurd h (by simp)
    · have h' : (e1 = closer ∧ e2 = rbrace) ∧ (l.takeWhile reSpace).length
          + (optDash (l.drop (l.takeWhile reSpace).length)).1 + 2 = k := by
        simpa using h
      obtain ⟨-, rfl⟩ := h'
      rw [hm] at hd
      simp only [List.length_cons] at hd
      omega

lemma matchWhitespace_bounded : BoundedM matchWhitespace := by
  intro l k h
  obtain rfl : (l.takeWhile reSpace).length = k := by simpa [matchWhitespace] using h
  exact takeWhile_len_le reSpace l

lemma lineInv_init (src : List Char) : LineInv (State.init src) := by
  simp [LineInv, State.init]

lemma count_take_add (src : List Char) (p i : Nat) :
    (src.take (p + i)).count '\n'
      = (src.take p).count '\n' + ((src.drop p).take i).count '\n' := by
  rw [List.take_add, List.count_append]

lemma read_pos_mono (s : State) (m : List Char → Option Nat) :
    s.pos ≤ (s.Read m).2.pos := by
  unfold State.Read
  rcases h : m s.rest with _ | k <;> simp

lemma read_pos_le (s : State) (m : List Char → Option Nat) (hg : BoundedM m)
    (h : s.pos ≤ s.source.length) : (s.Read m).2.pos ≤ s.source.length := by
  unfold State.Read
  rcases hm : m s.rest with _ | k
  · simpa using h
  · have hk := hg _ _ hm
    have : s.rest.length = s.source.length - s.pos := List.length_drop ..
    simp only []
    omega

lemma read_lineInv (s : State) (m : List Char → Option Nat) (h : LineInv s) :
    LineInv (s.Read m).2 := by
  unfold State.Read
  rcases hm : m s.rest with _ | k
  · simpa using h
  · simp only [LineInv] at *
    rw [h, count_take_add s.source s.pos k]
    unfold State.rest
    omega

lemma readUntil_pos_mono (s : State) (m : List Char → Option Nat)
    (h : s.pos ≤ s.source.length) : s.pos ≤ (s.ReadUntil m).2.2.pos := by
  unfold State.ReadUntil
  rcases hm : searchFrom m s.rest with _ | ⟨i, k⟩
  · simpa using h
  · simp

lemma readUntil_pos_le (s : State) (m : List Char → Option Nat)
    (h : s.pos ≤ s.source.length) : (s.ReadUntil m).2.2.pos ≤ s.source.length := by
  unfold State.ReadUntil
  rcases hm : searchFrom m s.rest with _ | ⟨i, k⟩
  · simp
  · have hi := searchFrom_le hm
    have : s.rest.length = s.source.length - s.pos := List.length_drop ..
    simp only []
    omega

lemma readUntil_lineInv (s : State) (m : List Char → Option Nat) (h : LineInv s) :
    LineInv (s.ReadUntil m).2.2 := by
  unfold State.ReadUntil
  rcases hm : searchFrom m s.rest with _ | ⟨i, k⟩
  · simp only [LineInv] at *
    have : s.source.take s.source.length = s.source := by simp
    rw [this, h]
    have h2 : s.source.count '\n'
        = (s.source.take s.pos).count '\n' + (s.source.drop s.pos).count '\n' := by
      conv_lhs => rw [← List.take_append_drop s.pos s.source]
      rw [List.count_append]
    unfold State.rest
    omega
  · simp only [LineInv] at *
    rw [h, count_take_add s.source s.pos i]
    unfold State.rest
    omega

lemma eatEnd_pos_mono (s : State) (m : List Char → Option Nat) (b : Bool) :
    s.pos ≤ (s.EatEnd m b).pos := by
  simp only [State.EatEnd]
  have h1 := read_pos_mono s m
  have h2 := read_pos_mono (s.Read m).2 matchWhitespace
  split <;> omega

lemma eatEnd_pos_le (s : State) (m : List Char → Option Nat) (b : Bool)
    (hg : BoundedM m) (h : s.pos ≤ s.source.length) :
    (s.EatEnd m b).pos ≤ s.source.length := by
  simp only [State.EatEnd]
  have h1 := read_pos_le s m hg h
  have hsrc : (s.Read m).2.source = s.source := by
    unfold State.Read
    rcases hm : m s.rest with _ | k <;> simp
  have h2 := read_pos_le (s.Read m).2 matchWhitespace matchWhitespace_bounded
    (by rw [hsrc]; exact h1)
  have h3 : (((s.Read m).2).Read matchWhitespace).2.source = (s.Read m).2.source := by
    unfold State.Read
    rcases hm : (s.Read m).2.rest.takeWhile reSpace with t <;> simp [matchWhitespace]
  split
  · rw [hsrc] at h2
    exact h2
  · exact h1

lemma eatEnd_lineInv (s : State) (m : List Char → Option Nat) (b : Bool)
    (h : LineInv s) : LineInv (s.EatEnd m b) := by
  simp only [State.EatEnd]
  have h1 := read_lineInv s m h
  have h2 := read_lineInv (s.Read m).2 matchWhitespace h1
  split
  · exact h2
  · exact h1

lemma read_source (s : State) (m : List Char → Option Nat) :
    (s.Read m).2.source = s.source := by
  unfold State.Read
  rcases hm : m s.rest with _ | k <;> simp

lemma readUntil_source (s : State) (m : List Char → Option Nat) :
    (s.ReadUntil m).2.2.source = s.source := by
  unfold State.ReadUntil
  rcases hm : searchFrom m s.rest with _ | ⟨i, k⟩ <;> simp

lemma eatEnd_source (s : State) (m : List Char → Option Nat) (b : Bool) :
    (s.EatEnd m b).source = s.source := by
  simp only [State.EatEnd]
  split <;> simp [read_source]

lemma isPre_iff : ∀ (a b : List Char), isPre a b = true ↔ a <+: b
  | [], b => by simp [isPre]
  | a :: as, [] => by
      simp only [isPre]
      constructor
      · intro h; exact absurd h (by simp)
      · intro h
        obtain ⟨t, ht⟩ := h
        exact absurd ht (by simp)
  | a :: as, b :: bs => by
      simp only [isPre, Bool.and_eq_true, beq_iff_eq, isPre_iff as bs,
        List.cons_prefix_cons]

lemma rfindAt_le {src str : List Char} : ∀ {k j : Nat}, rfindAt src str k = some j → j ≤ k := by
  intro k
  induction k with
  | zero =>
      intro j h
      simp only [rfindAt] at h
      split at h <;> simp_all
  | succ n ih =>
      intro j h
      simp only [rfindAt] at h
      split at h
      · simp_all
      · exact le_trans (ih h) (by omega)

lemma rfindAt_self {src str : List Char} {k : Nat} :
    rfindAt src str k = some k ↔ isPre str (src.drop k) = true := by
  cases k with
  | zero =>
      simp only [rfindAt, List.drop_zero]
      constructor
      · intro h
        by_cases hi : isPre str src = true
        · exact hi
        · rw [if_neg hi] at h
          exact absurd h (by simp)
      · intro h
        rw [if_pos h]
  | succ n =>
      simp only [rfindAt]
      constructor
      · intro h
        split at h
        · assumption
        · exact absurd (rfindAt_le h) (by omega)
      · intro h
        rw [if_pos h]

lemma at_iff (s : State) (str : List Char) : s.At str = true ↔ str <+: s.rest := by
  unfold State.At State.rest
  rw [beq_iff_eq, rfindAt_self, isPre_iff]

/-! ### Forward progress of the three branches -/

lemma read_step (s : State) (m : List Char → Option Nat) (hg : BoundedM m)
    (hle : s.pos ≤ s.source.length) :
    s.pos ≤ (s.Read m).2.pos ∧ (s.Read m).2.pos ≤ s.source.length ∧
      (s.Read m).2.source = s.source :=
  ⟨read_pos_mono s m, read_pos_le s m hg hle, read_source s m⟩

lemma readUntil_step (s : State) (m : List Char → Option Nat)
    (hle : s.pos ≤ s.source.length) :
    s.pos ≤ (s.ReadUntil m).2.2.pos ∧ (s.ReadUntil m).2.2.pos ≤ s.source.length ∧
      (s.ReadUntil m).2.2.source = s.source :=
  ⟨readUntil_pos_mono s m hle, readUntil_pos_le s m hle, readUntil_source s m⟩

lemma eatEnd_step (s : State) (m : List Char → Option Nat) (b : Bool) (hg : BoundedM m)
    (hle : s.pos ≤ s.source.length) :
    s.pos ≤ (s.EatEnd m b).pos ∧ (s.EatEnd m b).pos ≤ s.source.length ∧
      (s.EatEnd m b).source = s.source :=
  ⟨eatEnd_pos_mono s m b, eatEnd_pos_le s m b hg hle, eatEnd_source s m b⟩

lemma matchStart_of_pre {second : Char} {l : List Char} (h : [lbrace, second] <+: l) :
    ∃ k, matchStart second l = some k ∧ 2 ≤ k := by
  obtain ⟨t, rfl⟩ := h
  refine ⟨2 + (optDash t).1 + ((optDash t).2.takeWhile reSpace).length, ?_, by omega⟩
  simp [matchStart]

lemma stmtBranch_snd (lx : Lexer) (s : State) :
    (stmtBranch lx s).2
      = ((s.Read reStatementStart).2.ReadUntil reStatementEnd).2.2.EatEnd
          reStatementEnd lx.strip_tags := by
  simp only [stmtBranch]

lemma stmtBranch_mono (lx : Lexer) (s : State) (hle : s.pos ≤ s.source.length) :
    s.pos ≤ (stmtBranch lx s).2.pos ∧ (stmtBranch lx s).2.pos ≤ s.source.length := by
  obtain ⟨a1, b1, c1⟩ := read_step s reStatementStart (matchStart_bounded lbrace) hle
  obtain ⟨a2, b2, c2⟩ := readUntil_step (s.Read reStatementStart).2 reStatementEnd
    (by rw [c1]; exact b1)
  rw [c1] at b2
  obtain ⟨a3, b3, c3⟩ := eatEnd_step ((s.Read reStatementStart).2.ReadUntil reStatementEnd).2.2
    reStatementEnd lx.strip_tags (matchEnd_bounded rbrace) (by rw [c2, c1]; exact b2)
  rw [c2, c1] at b3
  rw [stmtBranch_snd]
  omega

lemma stmtBranch_strict (lx : Lexer) (s : State) (h : [lbrace, lbrace] <+: s.rest)
    (hle : s.pos ≤ s.source.length) :
    s.pos < (stmtBranch lx s).2.pos ∧ (stmtBranch lx s).2.pos ≤ s.source.length := by
  obtain ⟨k, hk, hk2⟩ := matchStart_of_pre h
  have hk' : reStatementStart s.rest = some k := hk
  have h1pos : (s.Read reStatementStart).2.pos = s.pos + k := by
    unfold State.Read
    rw [hk']
  obtain ⟨a1, b1, c1⟩ := read_step s reStatementStart (matchStart_bounded lbrace) hle
  obtain ⟨a2, b2, c2⟩ := readUntil_step (s.Read reStatementStart).2 reStatementEnd
    (by rw [c1]; exact b1)
  rw [c1] at b2
  obtain ⟨a3, b3, c3⟩ := eatEnd_step ((s.Read reStatementStart).2.ReadUntil reStatementEnd).2.2
    reStatementEnd lx.strip_tags (matchEnd_bounded rbrace) (by rw [c2, c1]; exact b2)
  rw [c2, c1] at b3
  rw [stmtBranch_snd]
  omega

lemma tagBranch_snd (lx : Lexer) (s : State) :
    (tagBranch lx s).2
      = if (tagNameRead s).1 = rawTag
        then (((tagExprRead s).2.2.EatEnd reTagEnd lx.strip_tags).ReadUntil matchEndraw).2.2
        else (tagExprRead s).2.2.EatEnd reTagEnd lx.strip_tags := by
  simp only [tagBranch]
  by_cases hr : (tagNameRead s).1 = rawTag <;> simp [hr]

lemma tagChain (lx : Lexer) (s : State) (hle : s.pos ≤ s.source.length) :
    (tagS1 s).pos ≤ (tagBranch lx s).2.pos ∧ (tagBranch lx s).2.pos ≤ s.source.length ∧
      (tagS1 s).pos ≤ s.source.length := by
  obtain ⟨a1, b1, c1⟩ := read_step s reTagStart (matchStart_bounded '%') hle
  obtain ⟨a2, b2, c2⟩ := readUntil_step (s.Read reTagStart).2 reNameEnd (by rw [c1]; exact b1)
  rw [c1] at b2
  have hS2 : tagS2 s = ((s.Read reTagStart).2.ReadUntil reNameEnd).2.2 := rfl
  obtain ⟨a3, b3, c3⟩ := readUntil_step ((s.Read reTagStart).2.ReadUntil reNameEnd).2.2 reTagEnd
    (by rw [c2, c1]; exact b2)
  rw [c2, c1] at b3
  have hER : tagExprRead s = (((s.Read reTagStart).2.ReadUntil reNameEnd).2.2).ReadUntil reTagEnd := rfl
  obtain ⟨a4, b4, c4⟩ := eatEnd_step
    ((((s.Read reTagStart).2.ReadUntil reNameEnd).2.2).ReadUntil reTagEnd).2.2 reTagEnd
    lx.strip_tags (matchEnd_bounded '%') (by rw [c3, c2, c1]; exact b3)
  rw [c3, c2, c1] at b4
  obtain ⟨a5, b5, c5⟩ := readUntil_step
    (((((s.Read reTagStart).2.ReadUntil reNameEnd).2.2).ReadUntil reTagEnd).2.2.EatEnd reTagEnd
      lx.strip_tags) matchEndraw (by rw [c4, c3, c2, c1]; exact b4)
  rw [c4, c3, c2, c1] at b5
  rw [tagBranch_snd, hER]
  have hS1 : tagS1 s = (s.Read reTagStart).2 := rfl
  rw [hS1]
  by_cases hr : (tagNameRead s).1 = rawTag
  · rw [if_pos hr]
    exact ⟨by omega, by omega, by omega⟩
  · rw [if_neg hr]
    exact ⟨by omega, by omega, by omega⟩

lemma tagBranch_mono (lx : Lexer) (s : State) (hle : s.pos ≤ s.source.length) :
    s.pos ≤ (tagBranch lx s).2.pos ∧ (tagBranch lx s).2.pos ≤ s.source.length := by
  obtain ⟨a, b, _⟩ := tagChain lx s hle
  have h1 : s.pos ≤ (tagS1 s).pos := read_pos_mono s reTagStart
  exact ⟨le_trans h1 a, b⟩

lemma tagBranch_strict (lx : Lexer) (s : State) (h : [lbrace, '%'] <+: s.rest)
    (hle : s.pos ≤ s.source.length) :
    s.pos < (tagBranch lx s).2.pos ∧ (tagBranch lx s).2.pos ≤ s.source.length := by
  obtain ⟨a, b, _⟩ := tagChain lx s hle
  obtain ⟨k, hk, hk2⟩ := matchStart_of_pre h
  have hk' : reTagStart s.rest = some k := hk
  have h1pos : (tagS1 s).pos = s.pos + k := by
    have : tagS1 s = (s.Read reTagStart).2 := rfl
    rw [this]
    unfold State.Read
    rw [hk']
  omega

lemma matchLiteralEnd_pre {l : List Char} {k : Nat} (h : matchLiteralEnd l = some k) :
    [lbrace, lbrace] <+: l ∨ [lbrace, '%'] <+: l := by
  match l with
  | [] => simp [matchLiteralEnd] at h
  | [c] => simp [matchLiteralEnd] at h
  | c1 :: c2 :: rest =>
      simp only [matchLiteralEnd] at h
      split at h
      · rename_i hc
        obtain ⟨rfl, hc2⟩ := hc
        rcases hc2 with rfl | rfl
        · exact Or.inl ⟨rest, rfl⟩
        · exact Or.inr ⟨rest, rfl⟩
      · exact absurd h (by simp)

lemma literalBranch_snd (s : State) :
    (literalBranch s).2 = (s.ReadUntil reLiteralEnd).2.2 := by
  simp only [literalBranch]

lemma literalBranch_mono (s : State) (hle : s.pos ≤ s.source.length) :
    s.pos ≤ (literalBranch s).2.pos ∧ (literalBranch s).2.pos ≤ s.source.length := by
  rw [literalBranch_snd]
  exact ⟨readUntil_pos_mono s reLiteralEnd hle, readUntil_pos_le s reLiteralEnd hle⟩

lemma literalBranch_strict (s : State) (h1 : ¬ [lbrace, lbrace] <+: s.rest)
    (h2 : ¬ [lbrace, '%'] <+: s.rest) (hlt : s.pos < s.source.length) :
    s.pos < (literalBranch s).2.pos ∧ (literalBranch s).2.pos ≤ s.source.length := by
  rw [literalBranch_snd]
  have hnone : reLiteralEnd s.rest = none := by
    rcases hm : reLiteralEnd s.rest with _ | k2
    · rfl
    · rcases matchLiteralEnd_pre hm with hp | hp
      · exact absurd hp h1
      · exact absurd hp h2
  have hrl : s.rest.length = s.source.length - s.pos := List.length_drop ..
  unfold State.ReadUntil
  rcases hm : searchFrom reLiteralEnd s.rest with _ | ⟨i, k⟩
  · simp only []
    omega
  · have hi := searchFrom_none_pos hnone hm
    have hib := searchFrom_le hm
    simp only []
    omega

/-- One loop iteration of the default-configured lexer strictly advances
the cursor and keeps it within the source. -/
lemma step_strict (s : State) (hlt : s.pos < s.source.length) :
    s.pos < (step defaultLexer s).2.pos ∧ (step defaultLexer s).2.pos ≤ s.source.length := by
  unfold step
  by_cases hA : s.At defaultLexer.statement_start = true
  · rw [if_pos hA]
    exact stmtBranch_strict defaultLexer s ((at_iff ..).mp hA) (le_of_lt hlt)
  · rw [if_neg hA]
    by_cases hB : s.At defaultLexer.tag_start = true
    · rw [if_pos hB]
      exact tagBranch_strict defaultLexer s ((at_iff ..).mp hB) (le_of_lt hlt)
    · rw [if_neg hB]
      refine literalBranch_strict s ?_ ?_ hlt
      · intro hp
        exact hA ((at_iff s defaultLexer.statement_start).mpr hp)
      · intro hp
        exact hB ((at_iff s defaultLexer.tag_start).mpr hp)

lemma step_mono (lx : Lexer) (s : State) (hle : s.pos ≤ s.source.length) :
    s.pos ≤ (step lx s).2.pos ∧ (step lx s).2.pos ≤ s.source.length := by
  unfold step
  by_cases hA : s.At lx.statement_start = true
  · rw [if_pos hA]
    exact stmtBranch_mono lx s hle
  · rw [if_neg hA]
    by_cases hB : s.At lx.tag_start = true
    · rw [if_pos hB]
      exact tagBranch_mono lx s hle
    · rw [if_neg hB]
      exact literalBranch_mono s hle

lemma step_source (lx : Lexer) (s : State) : (step lx s).2.source = s.source := by
  unfold step
  by_cases hA : s.At lx.statement_start = true
  · rw [if_pos hA, stmtBranch_snd]
    rw [eatEnd_source, readUntil_source, read_source]
  · rw [if_neg hA]
    by_cases hB : s.At lx.tag_start = true
    · rw [if_pos hB, tagBranch_snd]
      by_cases hr : (tagNameRead s).1 = rawTag
      · rw [if_pos hr, readUntil_source, eatEnd_source]
        have hER : tagExprRead s = (((s.Read reTagStart).2.ReadUntil reNameEnd).2.2).ReadUntil reTagEnd := rfl
        rw [hER, readUntil_source, readUntil_source, read_source]
      · rw [if_neg hr, eatEnd_source]
        have hER : tagExprRead s = (((s.Read reTagStart).2.ReadUntil reNameEnd).2.2).ReadUntil reTagEnd := rfl
        rw [hER, readUntil_source, readUntil_source, read_source]
    · rw [if_neg hB, literalBranch_snd, readUntil_source]

lemma step_lineInv (lx : Lexer) (s : State) (h : LineInv s) : LineInv (step lx s).2 := by
  unfold step
  by_cases hA : s.At lx.statement_start = true
  · rw [if_pos hA, stmtBranch_snd]
    exact eatEnd_lineInv _ _ _ (readUntil_lineInv _ _ (read_lineInv _ _ h))
  · rw [if_neg hA]
    by_cases hB : s.At lx.tag_start = true
    · rw [if_pos hB, tagBranch_snd]
      have hER : tagExprRead s = (((s.Read reTagStart).2.ReadUntil reNameEnd).2.2).ReadUntil reTagEnd := rfl
      by_cases hr : (tagNameRead s).1 = rawTag
      · rw [if_pos hr, hER]
        exact readUntil_lineInv _ _ (eatEnd_lineInv _ _ _
          (readUntil_lineInv _ _ (readUntil_lineInv _ _ (read_lineInv _ _ h))))
      · rw [if_neg hr, hER]
        exact eatEnd_lineInv _ _ _
          (readUntil_lineInv _ _ (readUntil_lineInv _ _ (read_lineInv _ _ h)))
    · rw [if_neg hB, literalBranch_snd]
      exact readUntil_lineInv _ _ h

/-! ### Token shapes of the three branches -/

lemma stmtBranch_fst (lx : Lexer) (s : State) :
    (stmtBranch lx s).1 = [⟨(s.Read reStatementStart).2.linenum, TokenType.statement,
      ((s.Read reStatementStart).2.ReadUntil reStatementEnd).1⟩] := by
  simp only [stmtBranch]

lemma literalBranch_fst (s : State) :
    (literalBranch s).1 = [⟨s.linenum, TokenType.literal,
      if backIsDash (s.ReadUntil reLiteralEnd).2.1 then rstrip (s.ReadUntil reLiteralEnd).1
      else (s.ReadUntil reLiteralEnd).1⟩] := by
  simp only [literalBranch]

lemma tagBranch_fst (lx : Lexer) (s : State) :
    (tagBranch lx s).1
      = (⟨(tagS1 s).linenum, TokenType.tag, (tagNameRead s).1⟩ ::
          (if strip (tagExprRead s).1 = [] then []
           else [⟨(tagS2 s).linenum, TokenType.expression, strip (tagExprRead s).1⟩]))
        ++ (if (tagNameRead s).1 = rawTag
            then [⟨((tagExprRead s).2.2.EatEnd reTagEnd lx.strip_tags).linenum,
              TokenType.literal,
              (((tagExprRead s).2.2.EatEnd reTagEnd lx.strip_tags).ReadUntil matchEndraw).1⟩]
            else []) := by
  simp only [tagBranch]
  by_cases hr : (tagNameRead s).1 = rawTag <;> simp [hr]

lemma step_no_eof (lx : Lexer) (s : State) :
    ∀ t ∈ (step lx s).1, t.type ≠ TokenType.eof := by
  unfold step
  by_cases hA : s.At lx.statement_start = true
  · rw [if_pos hA, stmtBranch_fst]
    intro t ht
    rw [List.mem_singleton] at ht
    subst ht
    simp
  · rw [if_neg hA]
    by_cases hB : s.At lx.tag_start = true
    · rw [if_pos hB, tagBranch_fst]
      intro t ht
      rcases List.mem_append.mp ht with h | h
      · rcases List.mem_cons.mp h with rfl | h2
        · simp
        · by_cases he : strip (tagExprRead s).1 = []
          · rw [if_pos he] at h2
            exact absurd h2 (by simp)
          · rw [if_neg he] at h2
            rw [List.mem_singleton] at h2
            subst h2
            simp
      · by_cases hr : (tagNameRead s).1 = rawTag
        · rw [if_pos hr] at h
          rw [List.mem_singleton] at h
          subst h
          simp
        · rw [if_neg hr] at h
          exact absurd h (by simp)
    · rw [if_neg hB, literalBranch_fst]
      intro t ht
      rw [List.mem_singleton] at ht
      subst ht
      simp

/-! ### Termination for the default configuration -/

lemma tokenizeLoop_total : ∀ (fuel : Nat) (s : State), s.pos ≤ s.source.length →
    s.source.length - s.pos ≤ fuel →
    ∃ ts sf, tokenizeLoop defaultLexer fuel s = some (ts, sf) ∧
      ∀ t ∈ ts, t.type ≠ TokenType.eof := by
  intro fuel
  induction fuel with
  | zero =>
      intro s hle hf
      have hp : s.pos = s.source.length := by omega
      have hEnd : s.End = true := by simp [State.End, hp]
      refine ⟨[], s, ?_, by simp⟩
      simp [tokenizeLoop, hEnd]
  | succ n ih =>
      intro s hle hf
      by_cases hEnd : s.End = true
      · refine ⟨[], s, ?_, by simp⟩
        simp [tokenizeLoop, hEnd]
      · have hlt : s.pos < s.source.length := by
          have hne : ¬ s.pos = s.source.length := by simpa [State.End] using hEnd
          omega
        obtain ⟨h1, h2⟩ := step_strict s hlt
        have hsrc := step_source defaultLexer s
        obtain ⟨ts, sf, hloop, hts⟩ := ih (step defaultLexer s).2 (by rw [hsrc]; exact h2)
          (by rw [hsrc]; omega)
        refine ⟨(step defaultLexer s).1 ++ ts, sf, ?_, ?_⟩
        · simp [tokenizeLoop, hEnd, hloop]
        · intro t ht
          rcases List.mem_append.mp ht with h | h
          · exact step_no_eof defaultLexer s t h
          · exact hts t h

/-! ### Correctness of `strip` -/

lemma dropWhile_decomp (p : Char → Bool) (l : List Char) :
    ∃ a, l = a ++ l.dropWhile p ∧ ∀ c ∈ a, p c = true := by
  refine ⟨l.takeWhile p, ?_, ?_⟩
  · rw [List.takeWhile_append_dropWhile]
  · intro c hc
    exact List.mem_takeWhile_imp hc

lemma head_dropWhile (p : Char → Bool) (l : List Char) : ∀ (c : Char),
    (l.dropWhile p).head? = some c → p c = false := by
  induction l with
  | nil =>
      intro c h
      simp [List.dropWhile] at h
  | cons a t ih =>
      intro c h
      rw [List.dropWhile_cons] at h
      by_cases hp : p a = true
      · rw [if_pos hp] at h
        exact ih c h
      · rw [if_neg hp] at h
        obtain rfl : a = c := by simpa using h
        simpa using hp

lemma lstrip_decomp (l : List Char) :
    ∃ a, l = a ++ lstrip l ∧ ∀ c ∈ a, notspace c = false := by
  obtain ⟨a, h1, h2⟩ := dropWhile_decomp (fun c => !notspace c) l
  exact ⟨a, h1, fun c hc => by simpa using h2 c hc⟩

lemma lstrip_head (l : List Char) (c : Char) (h : (lstrip l).head? = some c) :
    notspace c = true := by
  have := head_dropWhile (fun c => !notspace c) l c h
  simpa using this

lemma rstrip_decomp (l : List Char) :
    ∃ b, l = rstrip l ++ b ∧ ∀ c ∈ b, notspace c = false := by
  obtain ⟨a, h1, h2⟩ := dropWhile_decomp (fun c => !notspace c) l.reverse
  refine ⟨a.reverse, ?_, ?_⟩
  · calc l = l.reverse.reverse := (List.reverse_reverse l).symm
    _ = (a ++ l.reverse.dropWhile fun c => !notspace c).reverse := by rw [← h1]
    _ = rstrip l ++ a.reverse := by
        rw [List.reverse_append]
        rfl
  · intro c hc
    have := h2 c (List.mem_reverse.mp hc)
    simpa using this

lemma rstrip_last (l : List Char) (c : Char) (h : (rstrip l).getLast? = some c) :
    notspace c = true := by
  unfold rstrip at h
  rw [List.getLast?_reverse] at h
  have := head_dropWhile (fun c => !notspace c) l.reverse c h
  simpa using this

lemma strip_decomp (l : List Char) :
    ∃ a b, l = a ++ strip l ++ b ∧ (∀ c ∈ a, notspace c = false) ∧
      ∀ c ∈ b, notspace c = false := by
  obtain ⟨a, h1, h2⟩ := lstrip_decomp l
  obtain ⟨b, h3, h4⟩ := rstrip_decomp (lstrip l)
  refine ⟨a, b, ?_, h2, h4⟩
  conv_lhs => rw [h1, h3]
  rw [List.append_assoc]
  rfl

lemma strip_head (l : List Char) (c : Char) (h : (strip l).head? = some c) :
    notspace c = true := by
  unfold strip at h
  obtain ⟨b, h3, -⟩ := rstrip_decomp (lstrip l)
  rcases he : rstrip (lstrip l) with _ | ⟨x, xs⟩
  · rw [he] at h
    simp at h
  · rw [he] at h
    have hx : x = c := by simpa using h
    have hh : (lstrip l).head? = some c := by
      rw [h3, he, hx]
      rfl
    exact lstrip_head l c hh

lemma strip_last (l : List Char) (c : Char) (h : (strip l).getLast? = some c) :
    notspace c = true :=
  rstrip_last (lstrip l) c h

/-! ### Whitespace exclusion around statement bodies -/

lemma drop_takeWhile_eq (p : Char → Bool) (l : List Char) :
    l.drop (l.takeWhile p).length = l.dropWhile p := by
  induction l with
  | nil => rfl
  | cons a t ih =>
      by_cases hp : p a = true
      · rw [List.takeWhile_cons_of_pos hp, List.dropWhile_cons_of_pos hp,
          List.length_cons, List.drop_succ_cons]
        exact ih
      · rw [List.takeWhile_cons_of_neg hp, List.dropWhile_cons_of_neg hp]
        rfl

lemma optDash_nodash {c : Char} (r : List Char) (hc : ¬ c = '-') :
    optDash (c :: r) = (0, c :: r) := by
  unfold optDash
  split
  · rename_i r2 heq
    injection heq with h1 h2
    exact absurd h1 hc
  · rfl

lemma searchFrom_at {m : List Char → Option Nat} :
    ∀ {l : List Char} {i k : Nat}, searchFrom m l = some (i, k) → m (l.drop i) = some k := by
  intro l
  induction l with
  | nil =>
      intro i k h
      simp only [searchFrom] at h
      rcases hm : m [] with _ | k0 <;> rw [hm] at h
      · exact absurd h (by simp)
      · obtain ⟨rfl, rfl⟩ : 0 = i ∧ k0 = k := by simpa using h
        simpa using hm
  | cons c t ih =>
      intro i k h
      simp only [searchFrom] at h
      rcases hm : m (c :: t) with _ | k0 <;> rw [hm] at h
      · rcases hs : searchFrom m t with _ | ⟨i0, k0⟩ <;> rw [hs] at h
        · exact absurd h (by simp)
        · obtain ⟨rfl, rfl⟩ : i0 + 1 = i ∧ k0 = k := by simpa using h
          simpa using ih hs
      · obtain ⟨rfl, rfl⟩ : 0 = i ∧ k0 = k := by simpa using h
        simpa using hm

lemma searchFrom_min {m : List Char → Option Nat} :
    ∀ {l : List Char} {i k : Nat}, searchFrom m l = some (i, k) →
      ∀ j, j < i → m (l.drop j) = none := by
  intro l
  induction l with
  | nil =>
      intro i k h j hj
      simp only [searchFrom] at h
      rcases hm : m [] with _ | k0 <;> rw [hm] at h
      · exact absurd h (by simp)
      · obtain ⟨rfl, rfl⟩ : 0 = i ∧ k0 = k := by simpa using h
        exact absurd hj (Nat.not_lt_zero j)
  | cons c t ih =>
      intro i k h j hj
      simp only [searchFrom] at h
      rcases hm : m (c :: t) with _ | k0 <;> rw [hm] at h
      · rcases hs : searchFrom m t with _ | ⟨i0, k0⟩ <;> rw [hs] at h
        · exact absurd h (by simp)
        · obtain ⟨rfl, rfl⟩ : i0 + 1 = i ∧ k0 = k := by simpa using h
          rcases j with _ | j'
          · simpa using hm
          · simpa using ih hs j' (by omega)
      · obtain ⟨rfl, rfl⟩ : 0 = i ∧ k0 = k := by simpa using h
        exact absurd hj (Nat.not_lt_zero j)

lemma getLast?_decomp : ∀ (l : List Char) (c : Char),
    l.getLast? = some c → ∃ a, l = a ++ [c]
  | [], c => by simp
  | [x], c => by
      intro h
      obtain rfl : x = c := by simpa using h
      exact ⟨[], rfl⟩
  | x :: y :: t, c => by
      intro h
      rw [List.getLast?_cons_cons] at h
      obtain ⟨a, ha⟩ := getLast?_decomp (y :: t) c h
      exact ⟨x :: a, by rw [List.cons_append, ← ha]⟩

lemma matchEnd_cons_space {closer c : Char} {t : List Char} {k : Nat}
    (hc : reSpace c = true) (h : matchEnd closer t = some k) :
    matchEnd closer (c :: t) = some (k + 1) := by
  simp only [matchEnd] at h ⊢
  rw [List.takeWhile_cons_of_pos hc, List.length_cons, List.drop_succ_cons]
  rcases hm : (optDash (t.drop (t.takeWhile reSpace).length)).2 with _ | ⟨e1, t2⟩
  · rw [hm] at h
    exact absurd h (by simp)
  · rw [hm] at h
    rcases t2 with _ | ⟨e2, t3⟩
    · exact absurd h (by simp)
    · have h' : (if e1 = closer ∧ e2 = rbrace then
          some ((t.takeWhile reSpace).length
            + (optDash (t.drop (t.takeWhile reSpace).length)).1 + 2) else none) = some k := h
      show (if e1 = closer ∧ e2 = rbrace then
          some ((t.takeWhile reSpace).length + 1
            + (optDash (t.drop (t.takeWhile reSpace).length)).1 + 2) else none) = some (k + 1)
      by_cases hcc : e1 = closer ∧ e2 = rbrace
      · rw [if_pos hcc] at h' ⊢
        have hk : (t.takeWhile reSpace).length
            + (optDash (t.drop (t.takeWhile reSpace).length)).1 + 2 = k := by
          simpa using h'
        congr 1
        omega
      · rw [if_neg hcc] at h'
        exact absurd h' (by simp)

lemma matchStart_drop {second : Char} {l : List Char} {k : Nat}
    (h : matchStart second l = some k) :
    l.drop k = ((optDash (l.drop 2)).2).dropWhile reSpace := by
  match l with
  | [] => simp [matchStart] at h
  | [c] => simp [matchStart] at h
  | c1 :: c2 :: rest =>
      simp only [matchStart] at h
      split at h
      · obtain rfl :
            2 + (optDash rest).1 + ((optDash rest).2.takeWhile reSpace).length = k := by
          simpa using h
        have harith : 2 + (optDash rest).1 + ((optDash rest).2.takeWhile reSpace).length
            = ((optDash rest).1 + ((optDash rest).2.takeWhile reSpace).length) + 2 := by
          omega
        rw [harith]
        show rest.drop ((optDash rest).1 + ((optDash rest).2.takeWhile reSpace).length)
          = ((optDash rest).2).dropWhile reSpace
        rcases rest with _ | ⟨c0, r⟩
        · simp [optDash, List.dropWhile]
        · by_cases hc0 : c0 = '-'
          · subst hc0
            show ('-' :: r).drop (1 + (r.takeWhile reSpace).length) = r.dropWhile reSpace
            have h1 : (1 : Nat) + (r.takeWhile reSpace).length
                = (r.takeWhile reSpace).length + 1 := by omega
            rw [h1]
            exact drop_takeWhile_eq reSpace r
          · have ho : optDash (c0 :: r) = (0, c0 :: r) := optDash_nodash r hc0
            rw [ho, Nat.zero_add]
            exact drop_takeWhile_eq reSpace (c0 :: r)
      · exact absurd h (by simp)

lemma read_rest {s : State} {m : List Char → Option Nat} {k : Nat}
    (h : m s.rest = some k) : (s.Read m).2.rest = s.rest.drop k := by
  unfold State.Read
  rw [h]
  show s.source.drop (s.pos + k) = (s.source.drop s.pos).drop k
  rw [List.drop_drop]

lemma stmt_value_no_ws (s : State) (i k : Nat)
    (h : [lbrace, lbrace] <+: s.rest)
    (hsf : searchFrom reStatementEnd ((s.Read reStatementStart).2).rest = some (i, k)) :
    (∀ c, (((s.Read reStatementStart).2.ReadUntil reStatementEnd).1).head? = some c →
      reSpace c = false) ∧
    (∀ c, (((s.Read reStatementStart).2.ReadUntil reStatementEnd).1).getLast? = some c →
      reSpace c = false) := by
  obtain ⟨k0, hk0, -⟩ := matchStart_of_pre h
  have hk0' : reStatementStart s.rest = some k0 := hk0
  have hrest : ((s.Read reStatementStart).2).rest = s.rest.drop k0 := read_rest hk0'
  have hdw : s.rest.drop k0 = ((optDash (s.rest.drop 2)).2).dropWhile reSpace :=
    matchStart_drop hk0
  have hv : (((s.Read reStatementStart).2).ReadUntil reStatementEnd).1
      = ((s.Read reStatementStart).2).rest.take i := by
    unfold State.ReadUntil
    rw [hsf]
  rw [hv]
  set L := ((s.Read reStatementStart).2).rest with hL
  constructor
  · intro c hc
    have hl0 : L.head? = some c := by
      rcases hrl : L with _ | ⟨x, xs⟩
      · rw [hrl] at hc
        simp at hc
      · rw [hrl] at hc
        rcases i with _ | i'
        · simp at hc
        · simpa using hc
    rw [hrest, hdw] at hl0
    exact head_dropWhile reSpace _ c hl0
  · intro c hc
    by_contra hb
    rw [Bool.not_eq_false] at hb
    have hile : i ≤ L.length := searchFrom_le hsf
    obtain ⟨a, ha⟩ := getLast?_decomp (L.take i) c hc
    have hlen : (L.take i).length = i := by
      rw [List.length_take]
      omega
    have hiav : i = a.length + 1 := by
      rw [← hlen, ha]
      simp
    have h1 : L = (a ++ [c]) ++ L.drop i := by
      conv_lhs => rw [← List.take_append_drop i L]
      rw [ha]
    have hdropa : L.drop a.length = c :: L.drop i := by
      calc L.drop a.length = (a ++ ([c] ++ L.drop i)).drop a.length := by
            rw [← List.append_assoc, ← h1]
      _ = [c] ++ L.drop i := List.drop_left ..
      _ = c :: L.drop i := rfl
    have hmatch : matchEnd rbrace (L.drop i) = some k := searchFrom_at hsf
    have hcons := matchEnd_cons_space hb hmatch
    have hnone : matchEnd rbrace (L.drop a.length) = none :=
      searchFrom_min hsf a.length (by omega)
    rw [hdropa] at hnone
    rw [hcons] at hnone
    exact absurd hnone (by simp)

/-! ### Claim theorems -/

/-- C1 (counterexample): on the claim's own example input the emitted
type/value sequence is not Tag("raw"), Literal("{{ not a statement }}"),
EndOfInput — an extra token is emitted between the raw-body literal and
the end of input, so the claim fails whatever the line numbers are. -/
theorem raw_endraw_counterexample :
    (Tokenize defaultLexer
        ( "\x7b% raw %\x7d\x7b\x7b not a statement \x7d\x7d\x7b% endraw %\x7d" ).toList).map
        (fun ts => ts.map (fun t => (t.type, t.value)))
      ≠ some [(TokenType.tag, ( "raw" ).toList),
              (TokenType.literal, ( "\x7b\x7b not a statement \x7d\x7d" ).toList),
              (TokenType.eof, [])] := by
  decide

/-- C1 (amended): the text between the raw tag and the next endraw tag is
emitted as a single Literal token, but the endraw tag is not consumed as
part of the terminating pattern: the raw-path `ReadUntil` stops at the
start of the endraw match and leaves it unconsumed, so the endraw tag is
subsequently lexed as an ordinary tag emitting its own Tag("endraw")
token; the example input yields Tag("raw"),
Literal("{{ not a statement }}"), Tag("endraw"), EndOfInput. -/
theorem raw_endraw_amended :
    (Tokenize defaultLexer
        ( "\x7b% raw %\x7d\x7b\x7b not a statement \x7d\x7d\x7b% endraw %\x7d" ).toList
      = some [⟨1, TokenType.tag, ( "raw" ).toList⟩,
              ⟨1, TokenType.literal, ( "\x7b\x7b not a statement \x7d\x7d" ).toList⟩,
              ⟨1, TokenType.tag, ( "endraw" ).toList⟩,
              ⟨1, TokenType.eof, []⟩]) ∧
    ∀ (lx : Lexer) (s : State) (i k : Nat),
      (tagNameRead s).1 = rawTag →
      searchFrom matchEndraw ((tagExprRead s).2.2.EatEnd reTagEnd lx.strip_tags).rest
        = some (i, k) →
      (tagBranch lx s).2.pos
        = ((tagExprRead s).2.2.EatEnd reTagEnd lx.strip_tags).pos + i := by
  constructor
  · decide
  · intro lx s i k hraw hsf
    rw [tagBranch_snd, if_pos hraw]
    unfold State.ReadUntil
    rw [hsf]

/-- Witness for `raw_endraw_amended` at the raw-tag sample state. -/
theorem raw_endraw_amended_witness :
    (tagBranch defaultLexer sRaw).2.pos
      = ((tagExprRead sRaw).2.2.EatEnd reTagEnd defaultLexer.strip_tags).pos + 21 :=
  raw_endraw_amended.2 defaultLexer sRaw 21 12 (by decide) (by decide)

/-- C2 (counterexample): on the claim's scenario input the emitted token
values are not "hi ", " name ", "!", "" — the Statement value is not the
untrimmed source slice between the delimiters. -/
theorem statement_untrimmed_counterexample :
    (Tokenize defaultLexer ( "hi \x7b\x7b name \x7d\x7d!" ).toList).map
        (fun ts => ts.map Token.value)
      ≠ some [( "hi " ).toList, ( " name " ).toList, ( "!" ).toList, []] := by
  decide

/-- C2 (amended): for every output statement, the emitted Statement
token's text is the source slice between the statement delimiters with
the whitespace adjacent to the delimiters (and any trim marker) consumed
by the compiled delimiter patterns: the statement branch always emits
exactly the `ReadUntil` body as the Statement token; the start pattern
`\{\{-?\s*` eats the whitespace following the opening delimiter and the
end-delimiter match `\s*-?}}` begins at the whitespace preceding the
closing delimiter, so whenever the end delimiter is found the body
carries no leading and no trailing whitespace (an unterminated statement
instead absorbs the remainder verbatim); with the default configuration,
input "hi {{ name }}!" tokenizes to Literal("hi "), Statement("name"),
Literal("!"), EndOfInput. -/
theorem statement_trimmed_amended :
    (∀ (lx : Lexer) (s : State), (stmtBranch lx s).1
        = [⟨(s.Read reStatementStart).2.linenum, TokenType.statement,
            ((s.Read reStatementStart).2.ReadUntil reStatementEnd).1⟩]) ∧
    (∀ (s : State) (i k : Nat), [lbrace, lbrace] <+: s.rest →
      searchFrom reStatementEnd ((s.Read reStatementStart).2).rest = some (i, k) →
      (∀ c, (((s.Read reStatementStart).2.ReadUntil reStatementEnd).1).head? = some c →
        reSpace c = false) ∧
      (∀ c, (((s.Read reStatementStart).2.ReadUntil reStatementEnd).1).getLast? = some c →
        reSpace c = false)) ∧
    Tokenize defaultLexer ( "hi \x7b\x7b name \x7d\x7d!" ).toList
      = some [⟨1, TokenType.literal, ( "hi " ).toList⟩,
              ⟨1, TokenType.statement, ( "name" ).toList⟩,
              ⟨1, TokenType.literal, ( "!" ).toList⟩,
              ⟨1, TokenType.eof, []⟩] :=
  ⟨stmtBranch_fst, stmt_value_no_ws, by decide⟩

/-- Witness for `statement_trimmed_amended` at the sample statement
state: the body read for "hi \x7b\x7b name \x7d\x7d!" is "name", whose
first character 'n' and last character 'e' are not whitespace. -/
theorem statement_trimmed_amended_witness :
    reSpace 'n' = false ∧ reSpace 'e' = false :=
  ⟨(statement_trimmed_amended.2.1 sStmt 4 3 (by decide) (by decide)).1 'n' (by decide),
   (statement_trimmed_amended.2.1 sStmt 4 3 (by decide) (by decide)).2 'e' (by decide)⟩

/-- C3: for every input string the default-configured Tokenize terminates
and returns a token sequence ending with exactly one EndOfInput token with
no tokens after it; the empty input yields the single EndOfInput token. -/
theorem tokenize_total_eof :
    (∀ src : List Char, ∃ ts tE, Tokenize defaultLexer src = some (ts ++ [tE]) ∧
        tE.type = TokenType.eof ∧ ∀ t ∈ ts, t.type ≠ TokenType.eof) ∧
    Tokenize defaultLexer [] = some [⟨1, TokenType.eof, []⟩] := by
  constructor
  · intro src
    obtain ⟨ts, sf, hloop, hts⟩ := tokenizeLoop_total (src.length + 1) (State.init src)
      (by simp only [State.init]; omega) (by simp only [State.init]; omega)
    refine ⟨ts, ⟨sf.linenum, TokenType.eof, []⟩, ?_, rfl, hts⟩
    unfold Tokenize
    rw [hloop]
  · decide

/-- Witness for `tokenize_total_eof` at a concrete input. -/
theorem tokenize_total_eof_witness :
    ∃ ts tE, Tokenize defaultLexer ( "x" ).toList = some (ts ++ [tE]) ∧
      tE.type = TokenType.eof ∧ ∀ t ∈ ts, t.type ≠ TokenType.eof :=
  tokenize_total_eof.1 ( "x" ).toList

/-- C4 (code bug): a Lexer constructed with four custom delimiter strings
still scans with the hard-coded default-delimiter patterns (the TODO at
lex.cpp:78 leaves escaping and compiling the regexes from the configured
strings unimplemented): on "<< name >>" the branch guard recognises the
configured "<<", but the consuming patterns match nothing and the end
search finds no "}}", so the entire input, configured delimiters
included, is swallowed into a single Statement token instead of being
recognised and consumed according to the configured delimiters. -/
theorem custom_delimiters_ignored :
    Tokenize ⟨( "<<" ).toList, ( ">>" ).toList, ( "<#" ).toList, ( "#>" ).toList, false⟩
        ( "<< name >>" ).toList
      = some [⟨1, TokenType.statement, ( "<< name >>" ).toList⟩,
              ⟨1, TokenType.eof, []⟩] := by
  decide

/-- C5: the cursor position is monotonically non-decreasing across the
scan and the line counter always equals 1 plus the number of newlines in
the consumed prefix: the initial state satisfies the invariant, and every
cursor operation (ReadUntil, Read, EatEnd) and every full loop iteration
preserves it while never moving the position backwards. -/
theorem cursor_position_line_invariant :
    (∀ src : List Char, LineInv (State.init src)) ∧
    ∀ (s : State) (m : List Char → Option Nat) (b : Bool) (lx : Lexer),
      s.pos ≤ s.source.length → LineInv s →
      (s.pos ≤ (s.ReadUntil m).2.2.pos ∧ LineInv (s.ReadUntil m).2.2) ∧
      (s.pos ≤ (s.Read m).2.pos ∧ LineInv (s.Read m).2) ∧
      (s.pos ≤ (s.EatEnd m b).pos ∧ LineInv (s.EatEnd m b)) ∧
      (s.pos ≤ (step lx s).2.pos ∧ LineInv (step lx s).2) := by
  refine ⟨lineInv_init, ?_⟩
  intro s m b lx hle hinv
  exact ⟨⟨readUntil_pos_mono s m hle, readUntil_lineInv s m hinv⟩,
    ⟨read_pos_mono s m, read_lineInv s m hinv⟩,
    ⟨eatEnd_pos_mono s m b, eatEnd_lineInv s m b hinv⟩,
    ⟨(step_mono lx s hle).1, step_lineInv lx s hinv⟩⟩

/-- Witness for `cursor_position_line_invariant` at a concrete state. -/
theorem cursor_position_line_invariant_witness :
    (wState.pos ≤ (wState.ReadUntil matchWhitespace).2.2.pos ∧
      LineInv (wState.ReadUntil matchWhitespace).2.2) ∧
    (wState.pos ≤ (wState.Read matchWhitespace).2.pos ∧
      LineInv (wState.Read matchWhitespace).2) ∧
    (wState.pos ≤ (wState.EatEnd matchWhitespace false).pos ∧
      LineInv (wState.EatEnd matchWhitespace false)) ∧
    (wState.pos ≤ (step defaultLexer wState).2.pos ∧
      LineInv (step defaultLexer wState).2) :=
  cursor_position_line_invariant.2 wState matchWhitespace false defaultLexer
    (by decide)
    (show wState.linenum = 1 + ((wState.source.take wState.pos).count '\n') from by decide)

/-- C6 (code bug): when the remaining source contains no opening
delimiter at all, the literal branch's ReadUntil finds no match and the
smatch is cleared, yet the right-trim decision still inspects
`match.str(0).back()`: the inspected matched text is EMPTY, contradicting
the claim that it is non-empty, and `back()` on an empty string is
undefined behavior in C++; modelling the prevailing implementation
behavior (the byte read is NUL, which is not `'-'`) the full remainder is
emitted as a single untrimmed Literal token. -/
theorem literal_empty_match_inspected :
    searchFrom reLiteralEnd ( "hello" ).toList = none ∧
    ((State.init ( "hello" ).toList).ReadUntil reLiteralEnd).2.1 = none ∧
    Tokenize defaultLexer ( "hello" ).toList
      = some [⟨1, TokenType.literal, ( "hello" ).toList⟩, ⟨1, TokenType.eof, []⟩] :=
  ⟨by decide, by decide, by decide⟩

/-- C7: in the tag branch, the text read between the tag name and the
tag-end delimiter is stripped of leading and trailing whitespace (the
stripped text is the original with exactly a leading and a trailing
whitespace run removed), and an Expression token carrying exactly the
stripped text is emitted if and only if the stripped text is non-empty. -/
theorem tag_expression_stripped (lx : Lexer) (s : State) :
    ((tagBranch lx s).1.filter (fun t => t.type == TokenType.expression)
      = if strip (tagExprRead s).1 = [] then []
        else [⟨(tagS2 s).linenum, TokenType.expression, strip (tagExprRead s).1⟩]) ∧
    (∃ a b, (tagExprRead s).1 = a ++ strip (tagExprRead s).1 ++ b ∧
      (∀ c ∈ a, notspace c = false) ∧ ∀ c ∈ b, notspace c = false) ∧
    (∀ c, (strip (tagExprRead s).1).head? = some c → notspace c = true) ∧
    (∀ c, (strip (tagExprRead s).1).getLast? = some c → notspace c = true) := by
  refine ⟨?_, strip_decomp _, fun c h => strip_head _ c h, fun c h => strip_last _ c h⟩
  rw [tagBranch_fst]
  by_cases he : strip (tagExprRead s).1 = [] <;>
    by_cases hr : (tagNameRead s).1 = rawTag <;>
      simp [he, hr, List.filter_append, List.filter_cons]

/-- Witness for `tag_expression_stripped` at a concrete tag state. -/
theorem tag_expression_stripped_witness :
    ((tagBranch defaultLexer sTag).1.filter (fun t => t.type == TokenType.expression)
      = if strip (tagExprRead sTag).1 = [] then []
        else [⟨(tagS2 sTag).linenum, TokenType.expression, strip (tagExprRead sTag).1⟩]) ∧
    (∃ a b, (tagExprRead sTag).1 = a ++ strip (tagExprRead sTag).1 ++ b ∧
      (∀ c ∈ a, notspace c = false) ∧ ∀ c ∈ b, notspace c = false) ∧
    (∀ c, (strip (tagExprRead sTag).1).head? = some c → notspace c = true) ∧
    (∀ c, (strip (tagExprRead sTag).1).getLast? = some c → notspace c = true) :=
  tag_expression_stripped defaultLexer sTag

/-- C8: with the default delimiter configuration, every Tokenize-loop
iteration that starts with the cursor strictly inside the source strictly
increases the cursor position and keeps it within the source — forward
progress, hence termination (this includes the raw path, which advances
to end of input when no endraw follows). -/
theorem step_forward_progress (s : State) (h : s.pos < s.source.length) :
    s.pos < (step defaultLexer s).2.pos ∧
      (step defaultLexer s).2.pos ≤ s.source.length :=
  step_strict s h

/-- Witness for `step_forward_progress` at a concrete state. -/
theorem step_forward_progress_witness :
    (State.init ( "x" ).toList).pos < (step defaultLexer (State.init ( "x" ).toList)).2.pos ∧
      (step defaultLexer (State.init ( "x" ).toList)).2.pos
        ≤ (State.init ( "x" ).toList).source.length :=
  step_forward_progress (State.init ( "x" ).toList) (by decide)

/-- C9: the tag branch emits the Tag token unconditionally — it is the
first token emitted, whatever the name read, including the zero-length
name — and concretely the input of an empty-named tag produces a Tag
token whose text is the empty string, followed by EndOfInput. -/
theorem tag_token_always_emitted :
    (∀ (lx : Lexer) (s : State), (tagBranch lx s).1.head?
        = some ⟨(tagS1 s).linenum, TokenType.tag, (tagNameRead s).1⟩) ∧
    Tokenize defaultLexer ( "\x7b%  %\x7d" ).toList
      = some [⟨1, TokenType.tag, []⟩, ⟨1, TokenType.eof, []⟩] := by
  constructor
  · intro lx s
    rw [tagBranch_fst]
    rfl
  · decide

/-- C10: `State::At` (the spec's StartsWith) returns true if and only if
the substring of the source beginning at the current position equals the
literal; in this embedding `At` is a pure function returning only a
`Bool`, so the cursor position and line counter are unchanged by
construction. -/
theorem starts_with_iff (s : State) (str : List Char) :
    s.At str = true ↔ str <+: s.source.drop s.pos :=
  at_iff s str


end Liquid
